import Mathlib

/-!
Shallow embedding of the inventory valuation core of `src/contexts/InventoryContext.tsx`
(repository Minisup2.o).

Modelling conventions:
* JavaScript numbers (quantities, unit costs, stock levels) are modelled as rationals `ℚ`.
* Dates are modelled as integer timestamps `ℤ`; `new Date(s)` followed by comparison of
  `Date` objects is an order embedding of date strings into timestamps, so the filter
  comparisons act directly on the `ℤ` field.
* `Array.prototype.sort` with comparator `(a, b) => a.date - b.date` is a stable sort
  ascending by date; it is modelled by `List.insertionSort` with the corresponding
  reflexive total order (stable with identical tie behaviour).
* The React state update `setTransactions([...transactions, newTransaction])` together
  with the `throw` in `addTransaction` is modelled by an `Except`-valued function: an
  error result leaves the caller with the unchanged original list.
-/

namespace Minisup

/-- Transaction type: `'entry' | 'exit'` in the source. -/
inductive TxType where
  | entry
  | exit
deriving DecidableEq, Repr

/-- `InventoryTransaction` from the source. -/
structure InventoryTransaction where
  id : String
  productId : String
  type : TxType
  quantity : ℚ
  unitCost : ℚ
  date : ℤ
  notes : String
deriving DecidableEq, Repr

/-- `Product` from the source (`barcode` is optional there). -/
structure Product where
  id : String
  name : String
  description : String
  categoryId : String
  sku : String
  minStock : ℚ
  image : String
  price : ℚ
  barcode : Option String
deriving DecidableEq, Repr

/-- `InventoryMethod = 'UEPS' | 'PEPS' | 'weighted'`. -/
inductive InventoryMethod where
  | UEPS
  | PEPS
  | weighted
deriving DecidableEq, Repr

/-- A transaction draft, `Omit<InventoryTransaction, 'id'>` in the source. -/
structure TransactionDraft where
  productId : String
  type : TxType
  quantity : ℚ
  unitCost : ℚ
  date : ℤ
  notes : String
deriving DecidableEq, Repr

/-- `{ ...transaction, id: uuidv4() }`: attach a fresh id to a draft. -/
def TransactionDraft.withId (d : TransactionDraft) (newId : String) : InventoryTransaction :=
  { id := newId, productId := d.productId, type := d.type, quantity := d.quantity,
    unitCost := d.unitCost, date := d.date, notes := d.notes }

/-- `getProductStock`: filter the ledger by product, then fold adding entry
quantities and subtracting exit quantities, starting from 0. -/
def getProductStock (transactions : List InventoryTransaction) (productId : String) : ℚ :=
  (transactions.filter (fun t => t.productId = productId)).foldl
    (fun stock t => if t.type = TxType.entry then stock + t.quantity else stock - t.quantity) 0

/-- `getLowStockProducts`: products whose current stock is at most `minStock`. -/
def getLowStockProducts (products : List Product)
    (transactions : List InventoryTransaction) : List Product :=
  products.filter (fun product => getProductStock transactions product.id ≤ product.minStock)

/-- `getProductTransactions`: transactions of the product with date in the
inclusive range `[startDate, endDate]`. -/
def getProductTransactions (transactions : List InventoryTransaction) (productId : String)
    (startDate endDate : ℤ) : List InventoryTransaction :=
  transactions.filter
    (fun t => t.productId = productId ∧ startDate ≤ t.date ∧ t.date ≤ endDate)

/-- `addTransaction`: reject an exit when current stock is below its quantity
(`throw new Error('Not enough stock for this transaction')`), otherwise append
the new transaction to the ledger. -/
def addTransaction (transactions : List InventoryTransaction) (draft : TransactionDraft)
    (newId : String) : Except String (List InventoryTransaction) :=
  if draft.type = TxType.exit ∧ getProductStock transactions draft.productId < draft.quantity
  then Except.error "Not enough stock for this transaction"
  else Except.ok (transactions ++ [draft.withId newId])

/-- Ascending-by-date order used by the source comparator
`(a, b) => new Date(a.date).getTime() - new Date(b.date).getTime()`. -/
def dateLE (a b : InventoryTransaction) : Prop := a.date ≤ b.date

/-- Descending-by-date order used by the source comparator
`(a, b) => new Date(b.date).getTime() - new Date(a.date).getTime()`. -/
def dateGE (a b : InventoryTransaction) : Prop := b.date ≤ a.date

instance : DecidableRel dateLE := fun a b => inferInstanceAs (Decidable (a.date ≤ b.date))

instance : DecidableRel dateGE := fun a b => inferInstanceAs (Decidable (b.date ≤ a.date))

instance : IsTotal InventoryTransaction dateLE := ⟨fun a b => le_total a.date b.date⟩

instance : IsTrans InventoryTransaction dateLE := ⟨fun _ _ _ h h' => le_trans h h'⟩

instance : IsTotal InventoryTransaction dateGE := ⟨fun a b => le_total b.date a.date⟩

instance : IsTrans InventoryTransaction dateGE := ⟨fun _ _ _ h h' => le_trans h' h⟩

/-- The consumption loop shared by PEPS and UEPS: drain `x` units from the front
of the lot queue.  An exhausted lot is removed (`remainingEntries.shift()`), a
partially used front lot is replaced by a copy with reduced quantity, and a
remainder left when the queue empties is dropped. -/
def drain : List InventoryTransaction → ℚ → List InventoryTransaction
  | [], _ => []
  | e :: rest, x =>
    if x ≤ 0 then e :: rest
    else if e.quantity ≤ x then drain rest (x - e.quantity)
    else { e with quantity := e.quantity - x } :: rest

/-- Running totals of the weighted-average branch. -/
structure WeightedState where
  totalUnits : ℚ
  totalValue : ℚ
deriving DecidableEq, Repr

/-- One weighted-average exit step: when `totalUnits > 0`, subtract the exit
quantity valued at the current average cost; otherwise leave the state alone. -/
def weightedStep (s : WeightedState) (ex : InventoryTransaction) : WeightedState :=
  if s.totalUnits > 0 then
    { totalUnits := s.totalUnits - ex.quantity,
      totalValue := s.totalValue - ex.quantity * (s.totalValue / s.totalUnits) }
  else s

/-- `reduce((sum, entry) => sum + entry.quantity, 0)`. -/
def stockSum (l : List InventoryTransaction) : ℚ :=
  l.foldl (fun sum e => sum + e.quantity) 0

/-- `reduce((sum, entry) => sum + entry.quantity * entry.unitCost, 0)`. -/
def costValue (l : List InventoryTransaction) : ℚ :=
  l.foldl (fun sum e => sum + e.quantity * e.unitCost) 0

/-- The in-range entry transactions a valuation query works with. -/
def inRangeEntries (transactions : List InventoryTransaction) (productId : String)
    (startDate endDate : ℤ) : List InventoryTransaction :=
  (getProductTransactions transactions productId startDate endDate).filter
    (fun t => t.type = TxType.entry)

/-- The in-range exit transactions a valuation query works with. -/
def inRangeExits (transactions : List InventoryTransaction) (productId : String)
    (startDate endDate : ℤ) : List InventoryTransaction :=
  (getProductTransactions transactions productId startDate endDate).filter
    (fun t => t.type = TxType.exit)

/-- Result record of `calculateInventoryCost`. -/
structure CostResult where
  entries : List InventoryTransaction
  exits : List InventoryTransaction
  remainingStock : ℚ
  totalCost : ℚ
  averageCost : ℚ
deriving DecidableEq, Repr

/-- The PEPS lot queue after all exits: sort entries ascending by date, sort
exits ascending by date, then run the consumption loop exit by exit. -/
def fifoRemaining (transactions : List InventoryTransaction) (productId : String)
    (startDate endDate : ℤ) : List InventoryTransaction :=
  ((inRangeExits transactions productId startDate endDate).insertionSort dateLE).foldl
    (fun acc ex => drain acc ex.quantity)
    ((inRangeEntries transactions productId startDate endDate).insertionSort dateLE)

/-- The UEPS lot queue after all exits: identical to PEPS except the entry
queue is sorted descending by date (newest first). -/
def lifoRemaining (transactions : List InventoryTransaction) (productId : String)
    (startDate endDate : ℤ) : List InventoryTransaction :=
  ((inRangeExits transactions productId startDate endDate).insertionSort dateLE).foldl
    (fun acc ex => drain acc ex.quantity)
    ((inRangeEntries transactions productId startDate endDate).insertionSort dateGE)

/-- The weighted-average running totals after folding all entries and then
applying the exits in the order they appear in the filter (not re-sorted). -/
def weightedFinal (transactions : List InventoryTransaction) (productId : String)
    (startDate endDate : ℤ) : WeightedState :=
  (inRangeExits transactions productId startDate endDate).foldl weightedStep
    { totalUnits := stockSum (inRangeEntries transactions productId startDate endDate),
      totalValue := costValue (inRangeEntries transactions productId startDate endDate) }

/-- `calculateInventoryCost`: filter by product and inclusive date range, split
into entries and exits, then run the chosen costing method.  PEPS drains the
date-ascending lot queue, UEPS the date-descending one, both against the
date-ascending exit stream; the weighted branch folds all entries into running
totals and then applies the exits in the order they appear in the filter. -/
def calculateInventoryCost (transactions : List InventoryTransaction) (productId : String)
    (method : InventoryMethod) (startDate endDate : ℤ) : CostResult :=
  let entries := inRangeEntries transactions productId startDate endDate
  let exits := inRangeExits transactions productId startDate endDate
  match method with
  | InventoryMethod.PEPS =>
    let remainingEntries := fifoRemaining transactions productId startDate endDate
    let remainingStock := stockSum remainingEntries
    let totalCost := costValue remainingEntries
    { entries := entries, exits := exits, remainingStock := remainingStock,
      totalCost := totalCost,
      averageCost := if remainingStock > 0 then totalCost / remainingStock else 0 }
  | InventoryMethod.UEPS =>
    let remainingEntries := lifoRemaining transactions productId startDate endDate
    let remainingStock := stockSum remainingEntries
    let totalCost := costValue remainingEntries
    { entries := entries, exits := exits, remainingStock := remainingStock,
      totalCost := totalCost,
      averageCost := if remainingStock > 0 then totalCost / remainingStock else 0 }
  | InventoryMethod.weighted =>
    let final := weightedFinal transactions productId startDate endDate
    { entries := entries, exits := exits, remainingStock := final.totalUnits,
      totalCost := final.totalValue,
      averageCost := if final.totalUnits > 0 then final.totalValue / final.totalUnits else 0 }

/-! ### Basic accumulator lemmas -/

theorem foldl_add_map_sum {α : Type} (f : α → ℚ) (l : List α) (c : ℚ) :
    l.foldl (fun s e => s + f e) c = c + (l.map f).sum := by
  induction l generalizing c with
  | nil => simp
  | cons a t ih => simp [ih, add_assoc]

theorem stockSum_eq (l : List InventoryTransaction) :
    stockSum l = (l.map (fun e => e.quantity)).sum := by
  simp [stockSum, foldl_add_map_sum]

theorem costValue_eq (l : List InventoryTransaction) :
    costValue l = (l.map (fun e => e.quantity * e.unitCost)).sum := by
  simp [costValue, foldl_add_map_sum]

theorem stockSum_nil : stockSum [] = 0 := rfl

theorem stockSum_cons (e : InventoryTransaction) (l : List InventoryTransaction) :
    stockSum (e :: l) = e.quantity + stockSum l := by
  simp [stockSum_eq]

theorem costValue_cons (e : InventoryTransaction) (l : List InventoryTransaction) :
    costValue (e :: l) = e.quantity * e.unitCost + costValue l := by
  simp [costValue_eq]

theorem stockSum_perm {l l' : List InventoryTransaction} (h : l.Perm l') :
    stockSum l = stockSum l' := by
  simp only [stockSum_eq]
  exact (h.map _).sum_eq

theorem costValue_perm {l l' : List InventoryTransaction} (h : l.Perm l') :
    costValue l = costValue l' := by
  simp only [costValue_eq]
  exact (h.map _).sum_eq

theorem stockSum_nonneg {l : List InventoryTransaction}
    (h : ∀ e ∈ l, 0 ≤ e.quantity) : 0 ≤ stockSum l := by
  induction l with
  | nil => simp [stockSum_nil]
  | cons a t ih =>
    rw [stockSum_cons]
    have ha := h a (List.mem_cons_self a t)
    have ht := ih (fun e he => h e (List.mem_cons_of_mem a he))
    linarith

theorem getProductStock_signed (l : List InventoryTransaction) (c : ℚ) :
    l.foldl
      (fun stock t => if t.type = TxType.entry then stock + t.quantity else stock - t.quantity) c =
    c + stockSum (l.filter (fun t => t.type = TxType.entry)) -
      stockSum (l.filter (fun t => t.type = TxType.exit)) := by
  induction l generalizing c with
  | nil => simp [stockSum_nil]
  | cons a t ih =>
    rcases ha : a.type with _ | _ <;>
      simp [List.foldl_cons, ih, List.filter_cons, ha, stockSum_cons] <;> ring

theorem getProductStock_eq (transactions : List InventoryTransaction) (productId : String) :
    getProductStock transactions productId =
      stockSum ((transactions.filter (fun t => t.productId = productId)).filter
        (fun t => t.type = TxType.entry)) -
      stockSum ((transactions.filter (fun t => t.productId = productId)).filter
        (fun t => t.type = TxType.exit)) := by
  simp [getProductStock, getProductStock_signed]

/-! ### Claim C3 -/

/-- C3: `getProductStock` equals the sum of the product's entry quantities minus
the sum of its exit quantities over the whole ledger (unbounded date range), is
invariant under permuting the stored transaction list, and is `0` for a product
with no transactions. -/
theorem getProductStock_spec (transactions transactions' : List InventoryTransaction)
    (productId : String) (hperm : transactions.Perm transactions') :
    (getProductStock transactions productId =
      stockSum ((transactions.filter (fun t => t.productId = productId)).filter
        (fun t => t.type = TxType.entry)) -
      stockSum ((transactions.filter (fun t => t.productId = productId)).filter
        (fun t => t.type = TxType.exit)))
    ∧ getProductStock transactions' productId = getProductStock transactions productId
    ∧ ((∀ t ∈ transactions, t.productId ≠ productId) →
        getProductStock transactions productId = 0) := by
  refine ⟨getProductStock_eq _ _, ?_, ?_⟩
  · rw [getProductStock_eq, getProductStock_eq]
    have h1 := (hperm.filter (fun t => decide (t.productId = productId))).filter
      (fun t => decide (t.type = TxType.entry))
    have h2 := (hperm.filter (fun t => decide (t.productId = productId))).filter
      (fun t => decide (t.type = TxType.exit))
    rw [stockSum_perm h1, stockSum_perm h2]
  · intro hnone
    have : transactions.filter (fun t => t.productId = productId) = [] := by
      rw [List.filter_eq_nil_iff]
      intro t ht
      simp [hnone t ht]
    simp [getProductStock, this]

/-- Witness for C3 at a concrete ledger and permutation. -/
theorem getProductStock_spec_witness :
    getProductStock
      [⟨"i1", "p", TxType.entry, 4, 3, 1, ""⟩, ⟨"i2", "p", TxType.exit, 1, 0, 2, ""⟩] "p" = 3 ∧
    getProductStock
      [⟨"i2", "p", TxType.exit, 1, 0, 2, ""⟩, ⟨"i1", "p", TxType.entry, 4, 3, 1, ""⟩] "p" = 3 ∧
    getProductStock
      [⟨"i1", "p", TxType.entry, 4, 3, 1, ""⟩, ⟨"i2", "p", TxType.exit, 1, 0, 2, ""⟩] "q" = 0 := by
  have h := getProductStock_spec
    [⟨"i1", "p", TxType.entry, 4, 3, 1, ""⟩, ⟨"i2", "p", TxType.exit, 1, 0, 2, ""⟩]
    [⟨"i2", "p", TxType.exit, 1, 0, 2, ""⟩, ⟨"i1", "p", TxType.entry, 4, 3, 1, ""⟩]
    "p" (List.Perm.swap _ _ [])
  have hq := getProductStock_spec
    [⟨"i1", "p", TxType.entry, 4, 3, 1, ""⟩, ⟨"i2", "p", TxType.exit, 1, 0, 2, ""⟩]
    [⟨"i1", "p", TxType.entry, 4, 3, 1, ""⟩, ⟨"i2", "p", TxType.exit, 1, 0, 2, ""⟩]
    "q" (List.Perm.refl _)
  obtain ⟨h1, h2, -⟩ := h
  obtain ⟨-, -, hq3⟩ := hq
  refine ⟨?_, ?_, ?_⟩
  · rw [h1]
    simp [stockSum_eq, List.filter_cons]
    norm_num
  · rw [h2, h1]
    simp [stockSum_eq, List.filter_cons]
    norm_num
  · apply hq3
    intro t ht
    fin_cases ht <;> decide

/-! ### Claim C5 -/

/-- C5: `getProductTransactions` returns exactly the transactions of the given
product with date inside the inclusive range; no match gives the empty list
(not an error), and an inverted range gives the empty list. -/
theorem getProductTransactions_spec (transactions : List InventoryTransaction)
    (productId : String) (startDate endDate : ℤ) :
    (∀ t, t ∈ getProductTransactions transactions productId startDate endDate ↔
      t ∈ transactions ∧ t.productId = productId ∧ startDate ≤ t.date ∧ t.date ≤ endDate)
    ∧ ((∀ t ∈ transactions,
        ¬(t.productId = productId ∧ startDate ≤ t.date ∧ t.date ≤ endDate)) →
        getProductTransactions transactions productId startDate endDate = [])
    ∧ (endDate < startDate →
        getProductTransactions transactions productId startDate endDate = []) := by
  refine ⟨?_, ?_, ?_⟩
  · intro t
    simp [getProductTransactions, List.mem_filter, and_assoc]
  · intro hnone
    rw [getProductTransactions, List.filter_eq_nil_iff]
    intro t ht
    simpa using hnone t ht
  · intro hlt
    rw [getProductTransactions, List.filter_eq_nil_iff]
    intro t _
    simp only [decide_eq_true_eq, not_and]
    intro _ h1 h2
    omega

/-- Witness for C5 at a concrete ledger, including an inverted range. -/
theorem getProductTransactions_spec_witness :
    (⟨"i1", "p", TxType.entry, 4, 3, 7, ""⟩ : InventoryTransaction) ∈
      getProductTransactions [⟨"i1", "p", TxType.entry, 4, 3, 7, ""⟩] "p" 0 10
    ∧ getProductTransactions [⟨"i1", "p", TxType.entry, 4, 3, 7, ""⟩] "q" 0 10 = []
    ∧ getProductTransactions [⟨"i1", "p", TxType.entry, 4, 3, 7, ""⟩] "p" 10 0 = [] := by
  refine ⟨?_, ?_, ?_⟩
  · exact ((getProductTransactions_spec [⟨"i1", "p", TxType.entry, 4, 3, 7, ""⟩] "p" 0 10).1
      _).mpr ⟨List.mem_cons_self _ _, by decide, by decide, by decide⟩
  · exact (getProductTransactions_spec [⟨"i1", "p", TxType.entry, 4, 3, 7, ""⟩] "q" 0 10).2.1
      (by intro t ht; fin_cases ht; decide)
  · exact (getProductTransactions_spec [⟨"i1", "p", TxType.entry, 4, 3, 7, ""⟩] "p" 10 0).2.2
      (by decide)

/-! ### Claim C6 -/

/-- C6: `addTransaction` rejects with the insufficient-stock error exactly when
the draft is an exit whose quantity exceeds the current stock; entry drafts are
never rejected; an accepted draft appends exactly one transaction carrying the
draft's fields to the ledger (a rejection produces no new ledger at all, so the
stored list is unchanged). -/
theorem addTransaction_spec (transactions : List InventoryTransaction)
    (draft : TransactionDraft) (newId : String) :
    ((∃ msg, addTransaction transactions draft newId = Except.error msg) ↔
      draft.type = TxType.exit ∧
        getProductStock transactions draft.productId < draft.quantity)
    ∧ (draft.type = TxType.entry →
        addTransaction transactions draft newId =
          Except.ok (transactions ++ [draft.withId newId]))
    ∧ (∀ l, addTransaction transactions draft newId = Except.ok l →
        l = transactions ++ [draft.withId newId]) := by
  by_cases hc : draft.type = TxType.exit ∧
      getProductStock transactions draft.productId < draft.quantity
  · rw [addTransaction, if_pos hc]
    refine ⟨⟨fun _ => hc, fun _ => ⟨_, rfl⟩⟩, ?_, ?_⟩
    · intro he
      rw [he] at hc
      exact absurd hc.1 (by decide)
    · intro l hl
      exact absurd hl (by simp)
  · rw [addTransaction, if_neg hc]
    refine ⟨⟨?_, fun h => absurd h hc⟩, fun _ => rfl, ?_⟩
    · rintro ⟨msg, hmsg⟩
      exact absurd hmsg (by simp)
    · intro l hl
      simpa using hl.symm

/-- Witness for C6: a rejected oversized exit and an accepted entry. -/
theorem addTransaction_spec_witness :
    (∃ msg, addTransaction [] ⟨"p", TxType.exit, 5, 0, 1, ""⟩ "i9" = Except.error msg)
    ∧ addTransaction [] ⟨"p", TxType.entry, 5, 2, 1, ""⟩ "i9" =
        Except.ok [TransactionDraft.withId ⟨"p", TxType.entry, 5, 2, 1, ""⟩ "i9"] := by
  constructor
  · exact (addTransaction_spec [] ⟨"p", TxType.exit, 5, 0, 1, ""⟩ "i9").1.mpr
      ⟨rfl, by norm_num [getProductStock]⟩
  · exact (addTransaction_spec [] ⟨"p", TxType.entry, 5, 2, 1, ""⟩ "i9").2.1 rfl

/-! ### Claim C8 -/

/-- C8: `getLowStockProducts` returns exactly the products whose current stock
is at most their `minStock`; the threshold is inclusive, so a product whose
stock equals its `minStock` is included. -/
theorem getLowStockProducts_spec (products : List Product)
    (transactions : List InventoryTransaction) :
    (∀ p, p ∈ getLowStockProducts products transactions ↔
      p ∈ products ∧ getProductStock transactions p.id ≤ p.minStock)
    ∧ (∀ p ∈ products, getProductStock transactions p.id = p.minStock →
        p ∈ getLowStockProducts products transactions) := by
  constructor
  · intro p
    simp [getLowStockProducts, List.mem_filter]
  · intro p hp heq
    rw [getLowStockProducts, List.mem_filter]
    exact ⟨hp, by simp [heq]⟩

/-- Witness for C8: a product whose stock exactly equals its threshold is
reported as low stock. -/
theorem getLowStockProducts_spec_witness :
    (⟨"p", "Coke", "", "c", "SKU", 20, "", 15, none⟩ : Product) ∈
      getLowStockProducts [⟨"p", "Coke", "", "c", "SKU", 20, "", 15, none⟩]
        [⟨"i1", "p", TxType.entry, 20, 3, 1, ""⟩] := by
  apply (getLowStockProducts_spec [⟨"p", "Coke", "", "c", "SKU", 20, "", 15, none⟩]
    [⟨"i1", "p", TxType.entry, 20, 3, 1, ""⟩]).2 _ (List.mem_cons_self _ _)
  norm_num [getProductStock]

/-! ### Drain lemmas -/

theorem drain_of_nonpos {x : ℚ} (l : List InventoryTransaction) (hx : x ≤ 0) :
    drain l x = l := by
  cases l with
  | nil => rfl
  | cons e rest => simp [drain, hx]

theorem drain_nonneg_mem {l : List InventoryTransaction} (x : ℚ)
    (h : ∀ e ∈ l, 0 ≤ e.quantity) :
    ∀ e ∈ drain l x, 0 ≤ e.quantity := by
  induction l generalizing x with
  | nil => simp [drain]
  | cons a rest ih =>
    by_cases hx : x ≤ 0
    · rw [drain, if_pos hx]
      exact h
    · rw [drain, if_neg hx]
      by_cases ha : a.quantity ≤ x
      · rw [if_pos ha]
        exact ih _ (fun e he => h e (List.mem_cons_of_mem a he))
      · rw [if_neg ha]
        intro e he
        rcases List.mem_cons.mp he with he | he
        · subst he
          push_neg at ha
          simp only
          linarith
        · exact h e (List.mem_cons_of_mem a he)

theorem stockSum_drain {l : List InventoryTransaction} {x : ℚ} (hx : 0 ≤ x)
    (h : ∀ e ∈ l, 0 ≤ e.quantity) :
    stockSum (drain l x) = max (stockSum l - x) 0 := by
  induction l generalizing x with
  | nil =>
    rw [drain, stockSum_nil]
    rw [max_eq_right (by linarith)]
  | cons a rest ih =>
    have ha := h a (List.mem_cons_self a rest)
    have hrest : ∀ e ∈ rest, 0 ≤ e.quantity := fun e he => h e (List.mem_cons_of_mem a he)
    have hsum : 0 ≤ stockSum rest := stockSum_nonneg hrest
    by_cases hx0 : x ≤ 0
    · have hx' : x = 0 := le_antisymm hx0 hx
      subst hx'
      rw [drain_of_nonpos _ le_rfl, stockSum_cons]
      rw [max_eq_left (by linarith)]
      ring
    · rw [drain, if_neg hx0]
      by_cases hq : a.quantity ≤ x
      · rw [if_pos hq, ih (by linarith) hrest, stockSum_cons]
        congr 1
        ring
      · rw [if_neg hq, stockSum_cons]
        push_neg at hq
        simp only
        rw [stockSum_cons, max_eq_left (by linarith)]
        ring

theorem drain_drain {x y : ℚ} (l : List InventoryTransaction) (hx : 0 ≤ x) (hy : 0 ≤ y) :
    drain (drain l x) y = drain l (x + y) := by
  induction l generalizing x y with
  | nil => simp [drain]
  | cons a rest ih =>
    by_cases hx0 : x ≤ 0
    · have hx' : x = 0 := le_antisymm hx0 hx
      subst hx'
      rw [drain_of_nonpos _ le_rfl, zero_add]
    · rw [drain, if_neg hx0]
      by_cases hq : a.quantity ≤ x
      · rw [if_pos hq, ih (by linarith) hy]
        rw [drain, if_neg (by linarith), if_pos (by linarith)]
        congr 1
        ring
      · push_neg at hq
        rw [if_neg (not_le.mpr hq)]
        by_cases hy0 : y ≤ 0
        · have hy' : y = 0 := le_antisymm hy0 hy
          subst hy'
          rw [drain_of_nonpos _ le_rfl, add_zero, drain, if_neg hx0, if_neg (not_le.mpr hq)]
        · push_neg at hy0
          by_cases hqy : a.quantity - x ≤ y
          · rw [drain, if_neg (not_le.mpr hy0)]
            simp only
            rw [if_pos hqy]
            rw [drain, if_neg (by push_neg; linarith), if_pos (by linarith)]
            congr 1
            ring
          · push_neg at hqy
            rw [drain, if_neg (not_le.mpr hy0)]
            simp only
            rw [if_neg (not_le.mpr hqy)]
            rw [drain, if_neg (by push_neg; linarith), if_neg (by push_neg; linarith)]
            simp [sub_sub]

/-- Sequentially draining each exit equals a single drain by the total exit
quantity (for nonnegative quantities). -/
theorem foldl_drain_eq {exits : List InventoryTransaction}
    (l : List InventoryTransaction) (h : ∀ e ∈ exits, 0 ≤ e.quantity) :
    exits.foldl (fun acc ex => drain acc ex.quantity) l = drain l (stockSum exits) := by
  induction exits generalizing l with
  | nil => rw [List.foldl_nil, stockSum_nil, drain_of_nonpos _ le_rfl]
  | cons ex rest ih =>
    have hex := h ex (List.mem_cons_self ex rest)
    have hrest : ∀ e ∈ rest, 0 ≤ e.quantity := fun e he => h e (List.mem_cons_of_mem ex he)
    rw [List.foldl_cons, ih _ hrest, drain_drain _ hex (stockSum_nonneg hrest), stockSum_cons]

theorem mem_of_mem_inRangeEntries {transactions : List InventoryTransaction}
    {productId : String} {startDate endDate : ℤ} {t : InventoryTransaction}
    (h : t ∈ inRangeEntries transactions productId startDate endDate) : t ∈ transactions := by
  simp only [inRangeEntries, getProductTransactions, List.mem_filter] at h
  exact h.1.1

theorem mem_of_mem_inRangeExits {transactions : List InventoryTransaction}
    {productId : String} {startDate endDate : ℤ} {t : InventoryTransaction}
    (h : t ∈ inRangeExits transactions productId startDate endDate) : t ∈ transactions := by
  simp only [inRangeExits, getProductTransactions, List.mem_filter] at h
  exact h.1.1

/-- The FIFO/LIFO remaining stock is the clipped difference between in-range
entry and exit totals, for both queue orders. -/
theorem remaining_qty_eq (transactions : List InventoryTransaction) (productId : String)
    (startDate endDate : ℤ) (hq : ∀ t ∈ transactions, 0 ≤ t.quantity)
    (r : InventoryTransaction → InventoryTransaction → Prop) [DecidableRel r] :
    stockSum (((inRangeExits transactions productId startDate endDate).insertionSort
        dateLE).foldl (fun acc ex => drain acc ex.quantity)
        ((inRangeEntries transactions productId startDate endDate).insertionSort r)) =
      max (stockSum (inRangeEntries transactions productId startDate endDate) -
        stockSum (inRangeExits transactions productId startDate endDate)) 0 := by
  set entries := inRangeEntries transactions productId startDate endDate with hE
  set exits := inRangeExits transactions productId startDate endDate with hX
  have hEq : ∀ t ∈ entries.insertionSort r, 0 ≤ t.quantity := by
    intro t ht
    exact hq t (mem_of_mem_inRangeEntries ((List.perm_insertionSort r entries).mem_iff.mp ht))
  have hXq : ∀ t ∈ exits.insertionSort dateLE, 0 ≤ t.quantity := by
    intro t ht
    exact hq t (mem_of_mem_inRangeExits
      ((List.perm_insertionSort dateLE exits).mem_iff.mp ht))
  rw [foldl_drain_eq _ hXq]
  rw [stockSum_drain (stockSum_nonneg hXq) hEq]
  rw [stockSum_perm (List.perm_insertionSort r entries),
    stockSum_perm (List.perm_insertionSort dateLE exits)]

/-! ### Claim C10 -/

/-- C10: with no precondition relating exit sizes or dates to entries (only the
data-model fact that quantities are nonnegative), PEPS and UEPS both report
`remainingStock = max 0 (total in-range entry quantity - total in-range exit
quantity)`: the queue is built from all filtered entries regardless of date
interleaving, and any exit remainder hitting an empty queue is dropped. -/
theorem remainingStock_clipped (transactions : List InventoryTransaction)
    (productId : String) (startDate endDate : ℤ)
    (hq : ∀ t ∈ transactions, 0 ≤ t.quantity) :
    (calculateInventoryCost transactions productId InventoryMethod.PEPS
        startDate endDate).remainingStock =
      max 0 (stockSum (inRangeEntries transactions productId startDate endDate) -
        stockSum (inRangeExits transactions productId startDate endDate))
    ∧ (calculateInventoryCost transactions productId InventoryMethod.UEPS
        startDate endDate).remainingStock =
      max 0 (stockSum (inRangeEntries transactions productId startDate endDate) -
        stockSum (inRangeExits transactions productId startDate endDate)) := by
  constructor
  · show stockSum (fifoRemaining transactions productId startDate endDate) = _
    rw [fifoRemaining, remaining_qty_eq transactions productId startDate endDate hq dateLE]
    exact max_comm _ _
  · show stockSum (lifoRemaining transactions productId startDate endDate) = _
    rw [lifoRemaining, remaining_qty_eq transactions productId startDate endDate hq dateGE]
    exact max_comm _ _

/-- Witness for C10 on an oversold ledger: an exit dated before the entry that
covers it, plus an exit remainder that is dropped. -/
theorem remainingStock_clipped_witness :
    (calculateInventoryCost
        [⟨"x1", "p", TxType.exit, 7, 0, 1, ""⟩, ⟨"e1", "p", TxType.entry, 4, 2, 5, ""⟩]
        "p" InventoryMethod.PEPS 0 10).remainingStock = 0
    ∧ (calculateInventoryCost
        [⟨"x1", "p", TxType.exit, 7, 0, 1, ""⟩, ⟨"e1", "p", TxType.entry, 4, 2, 5, ""⟩]
        "p" InventoryMethod.UEPS 0 10).remainingStock = 0 := by
  have h := remainingStock_clipped
    [⟨"x1", "p", TxType.exit, 7, 0, 1, ""⟩, ⟨"e1", "p", TxType.entry, 4, 2, 5, ""⟩]
    "p" 0 10 (by intro t ht; fin_cases ht <;> norm_num)
  obtain ⟨h1, h2⟩ := h
  constructor
  · rw [h1]
    simp [inRangeEntries, inRangeExits, getProductTransactions, List.filter_cons,
      stockSum_eq]
    norm_num
  · rw [h2]
    simp [inRangeEntries, inRangeExits, getProductTransactions, List.filter_cons,
      stockSum_eq]
    norm_num

/-! ### Claim C2 -/

theorem entry_ne_exit : (TxType.entry = TxType.exit) = False := by simp

theorem exit_ne_entry : (TxType.exit = TxType.entry) = False := by simp

theorem entry_eq_entry : (TxType.entry = TxType.entry) = True := by simp

theorem exit_eq_exit : (TxType.exit = TxType.exit) = True := by simp

/-- The worked example from the specification: two entries (10 units at cost 5
dated 2024-01-01, 10 units at cost 7 dated 2024-01-10) and one exit of 12 units
dated 2024-01-15, with dates rendered as day offsets. -/
def exampleLedger : List InventoryTransaction :=
  [⟨"t1", "p", TxType.entry, 10, 5, 1, ""⟩,
   ⟨"t2", "p", TxType.entry, 10, 7, 10, ""⟩,
   ⟨"t3", "p", TxType.exit, 12, 0, 15, ""⟩]

/-- C2: on the spec's worked example, PEPS reports (8, 56, 7), UEPS reports
(8, 40, 5) and weighted reports (8, 48, 6) as
(remainingStock, totalCost, averageCost). -/
theorem calculateInventoryCost_example :
    ((calculateInventoryCost exampleLedger "p" InventoryMethod.PEPS 0 100).remainingStock = 8
      ∧ (calculateInventoryCost exampleLedger "p" InventoryMethod.PEPS 0 100).totalCost = 56
      ∧ (calculateInventoryCost exampleLedger "p" InventoryMethod.PEPS 0 100).averageCost = 7)
    ∧ ((calculateInventoryCost exampleLedger "p" InventoryMethod.UEPS 0 100).remainingStock = 8
      ∧ (calculateInventoryCost exampleLedger "p" InventoryMethod.UEPS 0 100).totalCost = 40
      ∧ (calculateInventoryCost exampleLedger "p" InventoryMethod.UEPS 0 100).averageCost = 5)
    ∧ ((calculateInventoryCost exampleLedger "p" InventoryMethod.weighted 0 100).remainingStock
        = 8
      ∧ (calculateInventoryCost exampleLedger "p" InventoryMethod.weighted 0 100).totalCost = 48
      ∧ (calculateInventoryCost exampleLedger "p" InventoryMethod.weighted 0 100).averageCost
        = 6) := by
  norm_num [calculateInventoryCost, fifoRemaining, lifoRemaining, weightedFinal,
    inRangeEntries, inRangeExits, getProductTransactions, List.filter_cons,
    List.insertionSort, List.orderedInsert, dateLE, dateGE, drain, weightedStep,
    stockSum, costValue, exampleLedger, entry_ne_exit, exit_ne_entry, entry_eq_entry,
    exit_eq_exit]

/-! ### Weighted-average lemmas -/

theorem weightedStep_of_nonpos {s : WeightedState} (ex : InventoryTransaction)
    (h : s.totalUnits ≤ 0) : weightedStep s ex = s := by
  rw [weightedStep, if_neg (not_lt.mpr h)]

theorem weighted_units_le {l : List InventoryTransaction} (s : WeightedState)
    (h : ∀ e ∈ l, 0 ≤ e.quantity) :
    (l.foldl weightedStep s).totalUnits ≤ s.totalUnits := by
  induction l generalizing s with
  | nil => simp
  | cons x rest ih =>
    have hx := h x (List.mem_cons_self x rest)
    have hrest : ∀ e ∈ rest, 0 ≤ e.quantity := fun e he => h e (List.mem_cons_of_mem x he)
    rw [List.foldl_cons]
    refine le_trans (ih _ hrest) ?_
    rw [weightedStep]
    by_cases hu : s.totalUnits > 0
    · rw [if_pos hu]
      simp only
      linarith
    · rw [if_neg hu]

theorem weighted_units_foldl {l : List InventoryTransaction} (s : WeightedState)
    (h : ∀ e ∈ l, 0 ≤ e.quantity) (hle : stockSum l ≤ s.totalUnits) :
    (l.foldl weightedStep s).totalUnits = s.totalUnits - stockSum l := by
  induction l generalizing s with
  | nil => simp [stockSum_nil]
  | cons x rest ih =>
    have hx := h x (List.mem_cons_self x rest)
    have hrest : ∀ e ∈ rest, 0 ≤ e.quantity := fun e he => h e (List.mem_cons_of_mem x he)
    have hsr : 0 ≤ stockSum rest := stockSum_nonneg hrest
    rw [stockSum_cons] at hle
    rw [List.foldl_cons, stockSum_cons]
    by_cases hu : s.totalUnits > 0
    · rw [weightedStep, if_pos hu]
      rw [ih _ hrest (by simp only; linarith)]
      simp only
      ring
    · push_neg at hu
      have hs0 : stockSum rest = 0 := by linarith
      have hx0 : x.quantity = 0 := by linarith
      rw [weightedStep_of_nonpos _ hu, ih _ hrest (by linarith)]
      rw [hs0, hx0]
      ring

theorem weighted_value_mul {l : List InventoryTransaction} (s : WeightedState)
    (h : ∀ e ∈ l, 0 ≤ e.quantity) (hpos : 0 < (l.foldl weightedStep s).totalUnits) :
    (l.foldl weightedStep s).totalValue * s.totalUnits =
      s.totalValue * (l.foldl weightedStep s).totalUnits := by
  induction l generalizing s with
  | nil => rw [List.foldl_nil, mul_comm]
  | cons x rest ih =>
    have hx := h x (List.mem_cons_self x rest)
    have hrest : ∀ e ∈ rest, 0 ≤ e.quantity := fun e he => h e (List.mem_cons_of_mem x he)
    rw [List.foldl_cons] at hpos ⊢
    by_cases hu : s.totalUnits > 0
    · have hsq : 0 < (weightedStep s x).totalUnits :=
        lt_of_lt_of_le hpos (weighted_units_le _ hrest)
      have hIH := ih (weightedStep s x) hrest hpos
      rw [weightedStep, if_pos hu] at hsq hIH ⊢
      simp only at hsq hIH ⊢
      have hu0 : s.totalUnits ≠ 0 := ne_of_gt hu
      have hv' : (s.totalValue - x.quantity * (s.totalValue / s.totalUnits)) * s.totalUnits =
          s.totalValue * (s.totalUnits - x.quantity) := by
        field_simp
        ring
      have hcancel : s.totalUnits - x.quantity ≠ 0 := ne_of_gt hsq
      apply mul_right_cancel₀ hcancel
      set F := rest.foldl weightedStep
        { totalUnits := s.totalUnits - x.quantity,
          totalValue := s.totalValue - x.quantity * (s.totalValue / s.totalUnits) } with hF
      linear_combination s.totalUnits * hIH + F.totalUnits * hv'
    · push_neg at hu
      rw [weightedStep_of_nonpos _ hu] at hpos ⊢
      exact ih s hrest hpos

theorem costValue_nonneg {l : List InventoryTransaction}
    (hq : ∀ e ∈ l, 0 ≤ e.quantity) (hc : ∀ e ∈ l, 0 ≤ e.unitCost) :
    0 ≤ costValue l := by
  induction l with
  | nil => simp [costValue]
  | cons a rest ih =>
    rw [costValue_cons]
    have h1 := mul_nonneg (hq a (List.mem_cons_self a rest)) (hc a (List.mem_cons_self a rest))
    have h2 := ih (fun e he => hq e (List.mem_cons_of_mem a he))
      (fun e he => hc e (List.mem_cons_of_mem a he))
    linarith

theorem costValue_le_hi {l : List InventoryTransaction} {hi : ℚ}
    (hq : ∀ e ∈ l, 0 ≤ e.quantity) (hc : ∀ e ∈ l, e.unitCost ≤ hi) :
    costValue l ≤ hi * stockSum l := by
  induction l with
  | nil => simp [costValue, stockSum_nil]
  | cons a rest ih =>
    rw [costValue_cons, stockSum_cons]
    have h1 : a.quantity * a.unitCost ≤ a.quantity * hi :=
      mul_le_mul_of_nonneg_left (hc a (List.mem_cons_self a rest))
        (hq a (List.mem_cons_self a rest))
    have h2 := ih (fun e he => hq e (List.mem_cons_of_mem a he))
      (fun e he => hc e (List.mem_cons_of_mem a he))
    nlinarith [h1, h2]

theorem costValue_ge_lo {l : List InventoryTransaction} {lo : ℚ}
    (hq : ∀ e ∈ l, 0 ≤ e.quantity) (hc : ∀ e ∈ l, lo ≤ e.unitCost) :
    lo * stockSum l ≤ costValue l := by
  induction l with
  | nil => simp [costValue, stockSum_nil]
  | cons a rest ih =>
    rw [costValue_cons, stockSum_cons]
    have h1 : a.quantity * lo ≤ a.quantity * a.unitCost :=
      mul_le_mul_of_nonneg_left (hc a (List.mem_cons_self a rest))
        (hq a (List.mem_cons_self a rest))
    have h2 := ih (fun e he => hq e (List.mem_cons_of_mem a he))
      (fun e he => hc e (List.mem_cons_of_mem a he))
    nlinarith [h1, h2]

/-- Per-step boundedness of an exit stream against the weighted running state:
each exit's quantity is at most the `totalUnits` current when it is processed. -/
def WExitsBounded : WeightedState → List InventoryTransaction → Prop
  | _, [] => True
  | s, ex :: rest => ex.quantity ≤ s.totalUnits ∧ WExitsBounded (weightedStep s ex) rest

instance instDecWExitsBounded :
    (s : WeightedState) → (l : List InventoryTransaction) → Decidable (WExitsBounded s l)
  | _, [] => Decidable.isTrue trivial
  | s, ex :: rest =>
    have : Decidable (WExitsBounded (weightedStep s ex) rest) := instDecWExitsBounded _ rest
    inferInstanceAs (Decidable (_ ∧ _))

theorem weighted_nonneg {l : List InventoryTransaction} (s : WeightedState)
    (hu : 0 ≤ s.totalUnits) (hv : 0 ≤ s.totalValue)
    (hq : ∀ e ∈ l, 0 ≤ e.quantity) (hb : WExitsBounded s l) :
    0 ≤ (l.foldl weightedStep s).totalUnits ∧ 0 ≤ (l.foldl weightedStep s).totalValue := by
  induction l generalizing s with
  | nil => exact ⟨hu, hv⟩
  | cons x rest ih =>
    obtain ⟨hxb, hrb⟩ := hb
    have hrest : ∀ e ∈ rest, 0 ≤ e.quantity := fun e he => hq e (List.mem_cons_of_mem x he)
    rw [List.foldl_cons]
    by_cases hup : s.totalUnits > 0
    · apply ih
      · rw [weightedStep, if_pos hup]
        simp only
        linarith
      · rw [weightedStep, if_pos hup]
        simp only
        have hune : s.totalUnits ≠ 0 := ne_of_gt hup
        have : s.totalValue - x.quantity * (s.totalValue / s.totalUnits) =
            s.totalValue * (s.totalUnits - x.quantity) / s.totalUnits := by
          field_simp
          ring
        rw [this]
        apply div_nonneg _ (le_of_lt hup)
        apply mul_nonneg hv
        linarith
      · exact hrest
      · exact hrb
    · push_neg at hup
      rw [weightedStep_of_nonpos _ hup]
      rw [weightedStep_of_nonpos _ hup] at hrb
      exact ih s hu hv hrest hrb

/-! ### Claim C4 -/

/-- C4 counterexample: an exit larger than the current `totalUnits` is not
skipped (the guard only checks `totalUnits > 0`), so the weighted totals are
driven negative: entry of 5 units then an exit of 12 yields
`remainingStock = -7`. -/
theorem weighted_nonneg_cex :
    (calculateInventoryCost
        [⟨"e1", "p", TxType.entry, 5, 1, 1, ""⟩, ⟨"x1", "p", TxType.exit, 12, 0, 2, ""⟩]
        "p" InventoryMethod.weighted 0 10).remainingStock < 0 := by
  norm_num [calculateInventoryCost, weightedFinal, inRangeEntries, inRangeExits,
    getProductTransactions, List.filter_cons, weightedStep, stockSum, costValue,
    entry_ne_exit, exit_ne_entry, entry_eq_entry, exit_eq_exit]

/-- C4 amended: an exit reached while `totalUnits = 0` is a no-op; and provided
each exit's quantity is at most the `totalUnits` current when it is processed
(with the data-model nonnegativity of quantities and unit costs), `totalUnits`
and `totalValue` stay nonnegative, so the weighted `remainingStock` (and
`totalCost`) are nonnegative.  Without that bound an oversized exit drives the
totals negative (see the counterexample). -/
theorem weighted_no_op_and_nonneg (transactions : List InventoryTransaction)
    (productId : String) (startDate endDate : ℤ)
    (hq : ∀ t ∈ transactions, 0 ≤ t.quantity)
    (hc : ∀ t ∈ transactions, 0 ≤ t.unitCost)
    (hb : WExitsBounded
      { totalUnits := stockSum (inRangeEntries transactions productId startDate endDate),
        totalValue := costValue (inRangeEntries transactions productId startDate endDate) }
      (inRangeExits transactions productId startDate endDate)) :
    (∀ (st : WeightedState) (ex : InventoryTransaction),
      st.totalUnits = 0 → weightedStep st ex = st)
    ∧ 0 ≤ (calculateInventoryCost transactions productId InventoryMethod.weighted
        startDate endDate).remainingStock
    ∧ 0 ≤ (calculateInventoryCost transactions productId InventoryMethod.weighted
        startDate endDate).totalCost := by
  have hqE : ∀ e ∈ inRangeEntries transactions productId startDate endDate, 0 ≤ e.quantity :=
    fun e he => hq e (mem_of_mem_inRangeEntries he)
  have hcE : ∀ e ∈ inRangeEntries transactions productId startDate endDate, 0 ≤ e.unitCost :=
    fun e he => hc e (mem_of_mem_inRangeEntries he)
  have hqX : ∀ e ∈ inRangeExits transactions productId startDate endDate, 0 ≤ e.quantity :=
    fun e he => hq e (mem_of_mem_inRangeExits he)
  have h := weighted_nonneg _ (stockSum_nonneg hqE) (costValue_nonneg hqE hcE) hqX hb
  exact ⟨fun st ex h0 => weightedStep_of_nonpos ex (le_of_eq h0), h.1, h.2⟩

/-- Witness for C4 (amended) on a ledger whose single exit fits in stock. -/
theorem weighted_no_op_and_nonneg_witness :
    0 ≤ (calculateInventoryCost
        [⟨"e1", "p", TxType.entry, 10, 5, 1, ""⟩, ⟨"x1", "p", TxType.exit, 4, 0, 2, ""⟩]
        "p" InventoryMethod.weighted 0 10).remainingStock := by
  have h := weighted_no_op_and_nonneg
    [⟨"e1", "p", TxType.entry, 10, 5, 1, ""⟩, ⟨"x1", "p", TxType.exit, 4, 0, 2, ""⟩]
    "p" 0 10
    (by intro t ht; fin_cases ht <;> norm_num)
    (by intro t ht; fin_cases ht <;> norm_num)
    (by norm_num [WExitsBounded, weightedStep, inRangeEntries, inRangeExits,
        getProductTransactions, List.filter_cons, stockSum, costValue,
        entry_ne_exit, exit_ne_entry, entry_eq_entry, exit_eq_exit])
  exact h.2.1

/-! ### Claim C1 -/

theorem exists_max_date {l : List InventoryTransaction} (h : l ≠ []) :
    ∃ m ∈ l, ∀ y ∈ l, y.date ≤ m.date := by
  induction l with
  | nil => exact absurd rfl h
  | cons a rest ih =>
    rcases rest.eq_nil_or_concat with hr | _
    · subst hr
      exact ⟨a, List.mem_cons_self a [], by intro y hy; fin_cases hy; exact le_rfl⟩
    · by_cases hrn : rest = []
      · subst hrn
        exact ⟨a, List.mem_cons_self a [], by intro y hy; fin_cases hy; exact le_rfl⟩
      · obtain ⟨m, hm, hmax⟩ := ih hrn
        by_cases hcmp : a.date ≤ m.date
        · refine ⟨m, List.mem_cons_of_mem a hm, ?_⟩
          intro y hy
          rcases List.mem_cons.mp hy with hy | hy
          · subst hy; exact hcmp
          · exact hmax y hy
        · push_neg at hcmp
          refine ⟨a, List.mem_cons_self a rest, ?_⟩
          intro y hy
          rcases List.mem_cons.mp hy with hy | hy
          · subst hy; exact le_rfl
          · exact le_trans (hmax y hy) (le_of_lt hcmp)

theorem stockSum_filter_le {l : List InventoryTransaction} (p : InventoryTransaction → Bool)
    (hq : ∀ e ∈ l, 0 ≤ e.quantity) :
    stockSum (l.filter p) ≤ stockSum l := by
  induction l with
  | nil => simp [stockSum_nil]
  | cons a rest ih =>
    have ha := hq a (List.mem_cons_self a rest)
    have hrest := ih (fun e he => hq e (List.mem_cons_of_mem a he))
    rw [List.filter_cons]
    by_cases hp : p a
    · rw [if_pos hp, stockSum_cons, stockSum_cons]
      linarith
    · rw [if_neg hp, stockSum_cons]
      linarith

/-- C1: when every exit is covered by the entries dated no later than it
(cumulative exits up to each exit's date never exceed cumulative entries up to
that date), the PEPS, UEPS and weighted methods all report the same
`remainingStock` (quantities are nonnegative per the data model). -/
theorem conservation_remainingStock (transactions : List InventoryTransaction)
    (productId : String) (startDate endDate : ℤ)
    (hq : ∀ t ∈ transactions, 0 ≤ t.quantity)
    (hcons : ∀ x ∈ inRangeExits transactions productId startDate endDate,
      stockSum ((inRangeExits transactions productId startDate endDate).filter
        (fun y => y.date ≤ x.date)) ≤
      stockSum ((inRangeEntries transactions productId startDate endDate).filter
        (fun y => y.date ≤ x.date))) :
    (calculateInventoryCost transactions productId InventoryMethod.PEPS
        startDate endDate).remainingStock =
      (calculateInventoryCost transactions productId InventoryMethod.UEPS
        startDate endDate).remainingStock
    ∧ (calculateInventoryCost transactions productId InventoryMethod.UEPS
        startDate endDate).remainingStock =
      (calculateInventoryCost transactions productId InventoryMethod.weighted
        startDate endDate).remainingStock := by
  have hqE : ∀ e ∈ inRangeEntries transactions productId startDate endDate, 0 ≤ e.quantity :=
    fun e he => hq e (mem_of_mem_inRangeEntries he)
  have hqX : ∀ e ∈ inRangeExits transactions productId startDate endDate, 0 ≤ e.quantity :=
    fun e he => hq e (mem_of_mem_inRangeExits he)
  have hXE : stockSum (inRangeExits transactions productId startDate endDate) ≤
      stockSum (inRangeEntries transactions productId startDate endDate) := by
    by_cases hX : inRangeExits transactions productId startDate endDate = []
    · rw [hX, stockSum_nil]
      exact stockSum_nonneg hqE
    · obtain ⟨m, hm, hmax⟩ := exists_max_date hX
      have h1 : (inRangeExits transactions productId startDate endDate).filter
          (fun y => y.date ≤ m.date) =
          inRangeExits transactions productId startDate endDate :=
        List.filter_eq_self.mpr (fun y hy => by simpa using hmax y hy)
      have h2 := hcons m hm
      rw [h1] at h2
      exact le_trans h2 (stockSum_filter_le _ hqE)
  have hP : (calculateInventoryCost transactions productId InventoryMethod.PEPS
      startDate endDate).remainingStock =
      stockSum (inRangeEntries transactions productId startDate endDate) -
        stockSum (inRangeExits transactions productId startDate endDate) := by
    show stockSum (fifoRemaining transactions productId startDate endDate) = _
    rw [fifoRemaining, remaining_qty_eq transactions productId startDate endDate hq dateLE]
    exact max_eq_left (by linarith)
  have hU : (calculateInventoryCost transactions productId InventoryMethod.UEPS
      startDate endDate).remainingStock =
      stockSum (inRangeEntries transactions productId startDate endDate) -
        stockSum (inRangeExits transactions productId startDate endDate) := by
    show stockSum (lifoRemaining transactions productId startDate endDate) = _
    rw [lifoRemaining, remaining_qty_eq transactions productId startDate endDate hq dateGE]
    exact max_eq_left (by linarith)
  have hW : (calculateInventoryCost transactions productId InventoryMethod.weighted
      startDate endDate).remainingStock =
      stockSum (inRangeEntries transactions productId startDate endDate) -
        stockSum (inRangeExits transactions productId startDate endDate) := by
    show (weightedFinal transactions productId startDate endDate).totalUnits = _
    rw [weightedFinal]
    exact weighted_units_foldl _ hqX hXE
  rw [hP, hU, hW]
  exact ⟨rfl, rfl⟩

/-- Witness for C1 on a conserving ledger: an entry of 10 before an exit of 4,
all three methods report 6 remaining. -/
theorem conservation_remainingStock_witness :
    (calculateInventoryCost
        [⟨"e1", "p", TxType.entry, 10, 5, 1, ""⟩, ⟨"x1", "p", TxType.exit, 4, 0, 5, ""⟩]
        "p" InventoryMethod.PEPS 0 10).remainingStock =
      (calculateInventoryCost
        [⟨"e1", "p", TxType.entry, 10, 5, 1, ""⟩, ⟨"x1", "p", TxType.exit, 4, 0, 5, ""⟩]
        "p" InventoryMethod.UEPS 0 10).remainingStock
    ∧ (calculateInventoryCost
        [⟨"e1", "p", TxType.entry, 10, 5, 1, ""⟩, ⟨"x1", "p", TxType.exit, 4, 0, 5, ""⟩]
        "p" InventoryMethod.UEPS 0 10).remainingStock =
      (calculateInventoryCost
        [⟨"e1", "p", TxType.entry, 10, 5, 1, ""⟩, ⟨"x1", "p", TxType.exit, 4, 0, 5, ""⟩]
        "p" InventoryMethod.weighted 0 10).remainingStock := by
  apply conservation_remainingStock
  · intro t ht
    fin_cases ht <;> norm_num
  · intro x hx
    have hx' : x = ⟨"x1", "p", TxType.exit, 4, 0, 5, ""⟩ := by
      simpa [inRangeExits, getProductTransactions, List.filter_cons,
        entry_ne_exit, exit_ne_entry, entry_eq_entry, exit_eq_exit] using hx
    subst hx'
    simp [inRangeEntries, inRangeExits, getProductTransactions, List.filter_cons,
      entry_ne_exit, exit_ne_entry, entry_eq_entry, exit_eq_exit, stockSum_eq]
    norm_num

/-! ### Claim C9 -/

/-- C9 counterexample: with one entry of 5 units at unit cost 2 and an exit of
12, the weighted `totalUnits` goes negative, so `averageCost` is reported as 0,
which is strictly below the minimum entry unit cost 2. -/
theorem weighted_avg_bounds_cex :
    inRangeEntries
        [⟨"e1", "p", TxType.entry, 5, 2, 1, ""⟩, ⟨"x1", "p", TxType.exit, 12, 0, 2, ""⟩]
        "p" 0 10 = [⟨"e1", "p", TxType.entry, 5, 2, 1, ""⟩]
    ∧ (calculateInventoryCost
        [⟨"e1", "p", TxType.entry, 5, 2, 1, ""⟩, ⟨"x1", "p", TxType.exit, 12, 0, 2, ""⟩]
        "p" InventoryMethod.weighted 0 10).averageCost < 2 := by
  constructor
  · simp [inRangeEntries, getProductTransactions, List.filter_cons,
      entry_ne_exit, exit_ne_entry, entry_eq_entry, exit_eq_exit]
  · norm_num [calculateInventoryCost, weightedFinal, inRangeEntries, inRangeExits,
      getProductTransactions, List.filter_cons, weightedStep, stockSum, costValue,
      entry_ne_exit, exit_ne_entry, entry_eq_entry, exit_eq_exit]

/-- C9 amended: for nonnegative quantities, if the weighted valuation ends with
positive `remainingStock` (no oversold exit stream), the reported `averageCost`
lies between any lower bound and any upper bound of the entry unit costs; in
particular between their minimum and maximum.  When `remainingStock` ends
nonpositive the method reports `averageCost = 0`, which can escape the bounds
(see the counterexample). -/
theorem weighted_avg_bounded (transactions : List InventoryTransaction)
    (productId : String) (startDate endDate : ℤ) (lo hi : ℚ)
    (hq : ∀ t ∈ transactions, 0 ≤ t.quantity)
    (_hne : inRangeEntries transactions productId startDate endDate ≠ [])
    (hpos : 0 < (calculateInventoryCost transactions productId InventoryMethod.weighted
        startDate endDate).remainingStock)
    (hlo : ∀ t ∈ inRangeEntries transactions productId startDate endDate, lo ≤ t.unitCost)
    (hhi : ∀ t ∈ inRangeEntries transactions productId startDate endDate, t.unitCost ≤ hi) :
    lo ≤ (calculateInventoryCost transactions productId InventoryMethod.weighted
        startDate endDate).averageCost
    ∧ (calculateInventoryCost transactions productId InventoryMethod.weighted
        startDate endDate).averageCost ≤ hi := by
  have hqE : ∀ e ∈ inRangeEntries transactions productId startDate endDate, 0 ≤ e.quantity :=
    fun e he => hq e (mem_of_mem_inRangeEntries he)
  have hqX : ∀ e ∈ inRangeExits transactions productId startDate endDate, 0 ≤ e.quantity :=
    fun e he => hq e (mem_of_mem_inRangeExits he)
  have hposF : 0 < (weightedFinal transactions productId startDate endDate).totalUnits := hpos
  have hEpos : 0 < stockSum (inRangeEntries transactions productId startDate endDate) := by
    have h1 := weighted_units_le
      { totalUnits := stockSum (inRangeEntries transactions productId startDate endDate),
        totalValue := costValue (inRangeEntries transactions productId startDate endDate) }
      hqX
    have h2 : (weightedFinal transactions productId startDate endDate).totalUnits ≤
        stockSum (inRangeEntries transactions productId startDate endDate) := h1
    linarith
  have hmul := weighted_value_mul
    { totalUnits := stockSum (inRangeEntries transactions productId startDate endDate),
      totalValue := costValue (inRangeEntries transactions productId startDate endDate) }
    hqX hposF
  have havg : (calculateInventoryCost transactions productId InventoryMethod.weighted
      startDate endDate).averageCost =
      (weightedFinal transactions productId startDate endDate).totalValue /
        (weightedFinal transactions productId startDate endDate).totalUnits := by
    show (if 0 < (weightedFinal transactions productId startDate endDate).totalUnits
      then (weightedFinal transactions productId startDate endDate).totalValue /
        (weightedFinal transactions productId startDate endDate).totalUnits else 0) = _
    rw [if_pos hposF]
  have hratio : (weightedFinal transactions productId startDate endDate).totalValue /
      (weightedFinal transactions productId startDate endDate).totalUnits =
      costValue (inRangeEntries transactions productId startDate endDate) /
        stockSum (inRangeEntries transactions productId startDate endDate) := by
    rw [div_eq_div_iff (ne_of_gt hposF) (ne_of_gt hEpos)]
    exact hmul
  rw [havg, hratio]
  constructor
  · rw [le_div_iff₀ hEpos]
    exact costValue_ge_lo hqE hlo
  · rw [div_le_iff₀ hEpos]
    exact costValue_le_hi hqE hhi

/-- Witness for C9 (amended): entry of 10 units at cost 5, exit of 4; the
weighted average stays between the cost bounds 4 and 6. -/
theorem weighted_avg_bounded_witness :
    4 ≤ (calculateInventoryCost
        [⟨"e1", "p", TxType.entry, 10, 5, 1, ""⟩, ⟨"x1", "p", TxType.exit, 4, 0, 5, ""⟩]
        "p" InventoryMethod.weighted 0 10).averageCost
    ∧ (calculateInventoryCost
        [⟨"e1", "p", TxType.entry, 10, 5, 1, ""⟩, ⟨"x1", "p", TxType.exit, 4, 0, 5, ""⟩]
        "p" InventoryMethod.weighted 0 10).averageCost ≤ 6 := by
  apply weighted_avg_bounded _ _ _ _ 4 6
  · intro t ht
    fin_cases ht <;> norm_num
  · simp [inRangeEntries, getProductTransactions, List.filter_cons,
      entry_ne_exit, exit_ne_entry, entry_eq_entry, exit_eq_exit]
  · norm_num [calculateInventoryCost, weightedFinal, inRangeEntries, inRangeExits,
      getProductTransactions, List.filter_cons, weightedStep, stockSum, costValue,
      entry_ne_exit, exit_ne_entry, entry_eq_entry, exit_eq_exit]
  · intro t ht
    have ht' : t = ⟨"e1", "p", TxType.entry, 10, 5, 1, ""⟩ := by
      simpa [inRangeEntries, getProductTransactions, List.filter_cons,
        entry_ne_exit, exit_ne_entry, entry_eq_entry, exit_eq_exit] using ht
    subst ht'
    norm_num
  · intro t ht
    have ht' : t = ⟨"e1", "p", TxType.entry, 10, 5, 1, ""⟩ := by
      simpa [inRangeEntries, getProductTransactions, List.filter_cons,
        entry_ne_exit, exit_ne_entry, entry_eq_entry, exit_eq_exit] using ht
    subst ht'
    norm_num

/-! ### Drain value lemmas for the FIFO/LIFO cost comparison -/

/-- Order on transactions by unit cost. -/
def costLE (a b : InventoryTransaction) : Prop := a.unitCost ≤ b.unitCost

/-- Closed form of the lot value left after draining a cons cell. -/
theorem costValue_drain_cons (e : InventoryTransaction) (M : List InventoryTransaction)
    (y : ℚ) (he : 0 ≤ e.quantity) :
    costValue (drain (e :: M) y) =
      (e.quantity - min (max y 0) e.quantity) * e.unitCost +
        costValue (drain M (max (y - e.quantity) 0)) := by
  by_cases hy : y ≤ 0
  · rw [drain_of_nonpos _ hy, costValue_cons]
    rw [max_eq_right hy, max_eq_right (by linarith)]
    rw [drain_of_nonpos _ le_rfl]
    rw [min_eq_left he]
    ring
  · push_neg at hy
    rw [drain, if_neg (not_le.mpr hy)]
    by_cases hq : e.quantity ≤ y
    · rw [if_pos hq]
      rw [max_eq_left (le_of_lt hy), min_eq_right hq,
        max_eq_left (by linarith)]
      ring
    · push_neg at hq
      rw [if_neg (not_le.mpr hq), costValue_cons]
      simp only
      rw [max_eq_left (le_of_lt hy), min_eq_left (le_of_lt hq),
        max_eq_right (by linarith), drain_of_nonpos _ le_rfl]

/-- Moving a cheaper lot `p` from just behind the front lot `a` to the front
(and absorbing its quantity into the drain) cannot decrease the consumed value:
draining `a :: p :: M` by `x` leaves at most the value that draining `a :: M`
by `x - p.quantity` leaves. -/
theorem drain_two_le (a p : InventoryTransaction) (M : List InventoryTransaction) (x : ℚ)
    (ha : 0 ≤ a.quantity) (hp : 0 ≤ p.quantity) (hc : p.unitCost ≤ a.unitCost)
    (hx : 0 ≤ x) (hpx : p.quantity ≤ x) :
    costValue (drain (a :: p :: M) x) ≤ costValue (drain (a :: M) (x - p.quantity)) := by
  rw [costValue_drain_cons a (p :: M) x ha,
    costValue_drain_cons p M (max (x - a.quantity) 0) hp,
    costValue_drain_cons a M (x - p.quantity) ha]
  rw [max_eq_left hx, max_eq_left (le_max_right (x - a.quantity) 0),
    max_eq_left (by linarith : (0:ℚ) ≤ x - p.quantity)]
  have htail : max (max (x - a.quantity) 0 - p.quantity) 0 =
      max (x - p.quantity - a.quantity) 0 := by
    rcases le_total (x - a.quantity) 0 with h | h
    · rw [max_eq_right h, max_eq_right (by linarith), max_eq_right (by linarith)]
    · rw [max_eq_left h]
      have hr : x - a.quantity - p.quantity = x - p.quantity - a.quantity := by ring
      rw [hr]
  rw [htail]
  have hE1 : min x a.quantity - min (x - p.quantity) a.quantity =
      p.quantity - min (max (x - a.quantity) 0) p.quantity := by
    rw [min_def, min_def, max_def]
    split_ifs with h1 h2 h3 h4 h5 <;>
      first
        | linarith
        | (rw [min_def]; split_ifs <;> linarith)
  have hge : 0 ≤ p.quantity - min (max (x - a.quantity) 0) p.quantity := by
    have := min_le_right (max (x - a.quantity) 0) p.quantity
    linarith
  have hprod : (p.quantity - min (max (x - a.quantity) 0) p.quantity) * p.unitCost ≤
      (p.quantity - min (max (x - a.quantity) 0) p.quantity) * a.unitCost :=
    mul_le_mul_of_nonneg_left hc hge
  have hring : (a.quantity - min x a.quantity) * a.unitCost +
      (p.quantity - min (max (x - a.quantity) 0) p.quantity) * a.unitCost =
      (a.quantity - min (x - p.quantity) a.quantity) * a.unitCost := by
    rw [← hE1]
    ring
  linarith [hprod, hring]

/-- Extracting a lot `a` from the middle of the queue to the front cannot
increase the remaining value, provided every lot ahead of it is at most as
expensive. -/
theorem drain_extract_le (a : InventoryTransaction) :
    ∀ (P S : List InventoryTransaction) (x : ℚ), 0 ≤ a.quantity →
      (∀ p ∈ P, 0 ≤ p.quantity ∧ p.unitCost ≤ a.unitCost) → 0 ≤ x →
      costValue (drain (a :: (P ++ S)) x) ≤ costValue (drain (P ++ a :: S) x) := by
  intro P
  induction P with
  | nil =>
    intro S x ha hP hx
    simp
  | cons p P' ih =>
    intro S x ha hP hx
    have hp := (hP p (List.mem_cons_self p P')).1
    have hpc := (hP p (List.mem_cons_self p P')).2
    have hP' : ∀ q' ∈ P', 0 ≤ q'.quantity ∧ q'.unitCost ≤ a.unitCost :=
      fun q' hq' => hP q' (List.mem_cons_of_mem p hq')
    by_cases hx0 : x ≤ 0
    · rw [drain_of_nonpos _ hx0, drain_of_nonpos _ hx0]
      exact le_of_eq (costValue_perm (List.perm_middle).symm)
    · push_neg at hx0
      by_cases hpq : p.quantity ≤ x
      · have hR : drain ((p :: P') ++ a :: S) x = drain (P' ++ a :: S) (x - p.quantity) := by
          show drain (p :: (P' ++ a :: S)) x = _
          rw [drain, if_neg (not_le.mpr hx0), if_pos hpq]
        rw [hR]
        calc costValue (drain (a :: ((p :: P') ++ S)) x)
            = costValue (drain (a :: p :: (P' ++ S)) x) := rfl
          _ ≤ costValue (drain (a :: (P' ++ S)) (x - p.quantity)) :=
              drain_two_le a p (P' ++ S) x ha hp hpc (le_of_lt hx0) hpq
          _ ≤ costValue (drain (P' ++ a :: S) (x - p.quantity)) :=
              ih S (x - p.quantity) ha hP' (by linarith)
      · push_neg at hpq
        have hR : drain ((p :: P') ++ a :: S) x =
            { p with quantity := p.quantity - x } :: (P' ++ a :: S) := by
          show drain (p :: (P' ++ a :: S)) x = _
          rw [drain, if_neg (not_le.mpr hx0), if_neg (not_le.mpr hpq)]
        rw [hR, costValue_cons]
        have hL : costValue (drain (a :: ((p :: P') ++ S)) x) =
            (a.quantity - min x a.quantity) * a.unitCost +
            ((p.quantity - max (x - a.quantity) 0) * p.unitCost +
              costValue (P' ++ S)) := by
          show costValue (drain (a :: p :: (P' ++ S)) x) = _
          rw [costValue_drain_cons a (p :: (P' ++ S)) x ha,
            costValue_drain_cons p (P' ++ S) (max (x - a.quantity) 0) hp]
          rw [max_eq_left hx, max_eq_left (le_max_right (x - a.quantity) 0)]
          have h1 : min (max (x - a.quantity) 0) p.quantity = max (x - a.quantity) 0 := by
            apply min_eq_left
            rcases le_total (x - a.quantity) 0 with h | h
            · rw [max_eq_right h]
              exact hp
            · rw [max_eq_left h]
              linarith
          have h2 : max (max (x - a.quantity) 0 - p.quantity) 0 = 0 := by
            apply max_eq_right
            rcases le_total (x - a.quantity) 0 with h | h
            · rw [max_eq_right h]
              linarith
            · rw [max_eq_left h]
              linarith
          rw [h1, h2, drain_of_nonpos _ le_rfl]
        rw [hL]
        have hT : costValue (P' ++ a :: S) =
            a.quantity * a.unitCost + costValue (P' ++ S) := by
          rw [costValue_perm List.perm_middle, costValue_cons]
        rw [hT]
        simp only
        have hμ : x - max (x - a.quantity) 0 = min x a.quantity := by
          rw [max_def, min_def]
          split_ifs <;> linarith
        have hμ0 : 0 ≤ min x a.quantity := le_min (le_of_lt hx0) ha
        have hprod : (min x a.quantity) * p.unitCost ≤ (min x a.quantity) * a.unitCost :=
          mul_le_mul_of_nonneg_left hpc hμ0
        have e1 : (p.quantity - max (x - a.quantity) 0) * p.unitCost =
            (p.quantity - x) * p.unitCost + (min x a.quantity) * p.unitCost := by
          rw [← hμ]
          ring
        have e2 : a.quantity * a.unitCost =
            (a.quantity - min x a.quantity) * a.unitCost +
              (min x a.quantity) * a.unitCost := by
          ring
        linarith [hprod, e1, e2]

/-- Draining a cost-sorted (cheapest-first) queue keeps at least as much value
as draining any permutation of it by the same amount. -/
theorem drain_costValue_le_sorted :
    ∀ (L L' : List InventoryTransaction) (x : ℚ),
      (∀ e ∈ L, 0 ≤ e.quantity) → L'.Perm L → L'.Pairwise costLE → 0 ≤ x →
      costValue (drain L x) ≤ costValue (drain L' x) := by
  intro L
  induction L with
  | nil =>
    intro L' x hq hperm hsort hx
    rw [hperm.eq_nil]
  | cons a T ih =>
    intro L' x hq hperm hsort hx
    have haL' : a ∈ L' := hperm.mem_iff.mpr (List.mem_cons_self a T)
    obtain ⟨P, S, rfl⟩ := List.append_of_mem haL'
    rw [List.pairwise_append] at hsort
    obtain ⟨hPp, hASp, hcross⟩ := hsort
    have hPa : ∀ p ∈ P, p.unitCost ≤ a.unitCost :=
      fun p hp => hcross p hp a (List.mem_cons_self a S)
    have hPSp : (P ++ S).Pairwise costLE := by
      rw [List.pairwise_append]
      exact ⟨hPp, List.Pairwise.of_cons hASp,
        fun p hp b hb => hcross p hp b (List.mem_cons_of_mem a hb)⟩
    have hperm2 : (a :: (P ++ S)).Perm (a :: T) := List.perm_middle.symm.trans hperm
    have hPS_T : (P ++ S).Perm T := hperm2.cons_inv
    have ha : 0 ≤ a.quantity := hq a (List.mem_cons_self a T)
    have hqT : ∀ e ∈ T, 0 ≤ e.quantity := fun e he => hq e (List.mem_cons_of_mem a he)
    have hqP : ∀ p ∈ P, 0 ≤ p.quantity :=
      fun p hp => hq p (hperm.mem_iff.mp (List.mem_append_left _ hp))
    have hstep2 : costValue (drain (a :: T) x) ≤ costValue (drain (a :: (P ++ S)) x) := by
      rw [costValue_drain_cons a T x ha, costValue_drain_cons a (P ++ S) x ha]
      have htail := ih (P ++ S) (max (x - a.quantity) 0) hqT hPS_T hPSp
        (le_max_right _ _)
      linarith [htail]
    have hstep1 : costValue (drain (a :: (P ++ S)) x) ≤ costValue (drain (P ++ a :: S) x) :=
      drain_extract_le a P S x ha (fun p hp => ⟨hqP p hp, hPa p hp⟩) hx
    exact le_trans hstep2 hstep1

/-! ### Claim C7 -/

/-- C7: when the in-range entries' unit costs are monotone in their dates —
never-later entries never cost more — the PEPS total cost dominates the UEPS
total cost, and with the opposite monotonicity the inequality reverses
(quantities are nonnegative per the data model). -/
theorem fifo_lifo_cost_monotone (transactions : List InventoryTransaction)
    (productId : String) (startDate endDate : ℤ)
    (hq : ∀ t ∈ transactions, 0 ≤ t.quantity) :
    ((∀ e1 ∈ inRangeEntries transactions productId startDate endDate,
        ∀ e2 ∈ inRangeEntries transactions productId startDate endDate,
        e1.date ≤ e2.date → e1.unitCost ≤ e2.unitCost) →
      (calculateInventoryCost transactions productId InventoryMethod.UEPS
        startDate endDate).totalCost ≤
      (calculateInventoryCost transactions productId InventoryMethod.PEPS
        startDate endDate).totalCost)
    ∧ ((∀ e1 ∈ inRangeEntries transactions productId startDate endDate,
        ∀ e2 ∈ inRangeEntries transactions productId startDate endDate,
        e1.date ≤ e2.date → e2.unitCost ≤ e1.unitCost) →
      (calculateInventoryCost transactions productId InventoryMethod.PEPS
        startDate endDate).totalCost ≤
      (calculateInventoryCost transactions productId InventoryMethod.UEPS
        startDate endDate).totalCost) := by
  have hqE : ∀ e ∈ inRangeEntries transactions productId startDate endDate, 0 ≤ e.quantity :=
    fun e he => hq e (mem_of_mem_inRangeEntries he)
  have hqXs : ∀ e ∈ (inRangeExits transactions productId startDate endDate).insertionSort
      dateLE, 0 ≤ e.quantity :=
    fun e he => hq e (mem_of_mem_inRangeExits
      ((List.perm_insertionSort dateLE _).mem_iff.mp he))
  have hpermA : ((inRangeEntries transactions productId startDate endDate).insertionSort
      dateLE).Perm (inRangeEntries transactions productId startDate endDate) :=
    List.perm_insertionSort dateLE _
  have hpermD : ((inRangeEntries transactions productId startDate endDate).insertionSort
      dateGE).Perm (inRangeEntries transactions productId startDate endDate) :=
    List.perm_insertionSort dateGE _
  have hx : 0 ≤ stockSum ((inRangeExits transactions productId startDate
      endDate).insertionSort dateLE) := stockSum_nonneg hqXs
  have hPf : (calculateInventoryCost transactions productId InventoryMethod.PEPS
      startDate endDate).totalCost =
      costValue (drain
        ((inRangeEntries transactions productId startDate endDate).insertionSort dateLE)
        (stockSum ((inRangeExits transactions productId startDate
          endDate).insertionSort dateLE))) := by
    show costValue (fifoRemaining transactions productId startDate endDate) = _
    rw [fifoRemaining, foldl_drain_eq _ hqXs]
  have hUf : (calculateInventoryCost transactions productId InventoryMethod.UEPS
      startDate endDate).totalCost =
      costValue (drain
        ((inRangeEntries transactions productId startDate endDate).insertionSort dateGE)
        (stockSum ((inRangeExits transactions productId startDate
          endDate).insertionSort dateLE))) := by
    show costValue (lifoRemaining transactions productId startDate endDate) = _
    rw [lifoRemaining, foldl_drain_eq _ hqXs]
  constructor
  · intro hmono
    rw [hPf, hUf]
    have hsortA : ((inRangeEntries transactions productId startDate
        endDate).insertionSort dateLE).Pairwise costLE := by
      have hs : List.Sorted dateLE ((inRangeEntries transactions productId startDate
          endDate).insertionSort dateLE) := List.sorted_insertionSort dateLE _
      exact List.Pairwise.imp_of_mem
        (fun h1 h2 hd => hmono _ (hpermA.mem_iff.mp h1) _ (hpermA.mem_iff.mp h2) hd) hs
    exact drain_costValue_le_sorted _ _ _
      (fun e he => hqE e (hpermD.mem_iff.mp he))
      (hpermA.trans hpermD.symm) hsortA hx
  · intro hmono
    rw [hPf, hUf]
    have hsortD : ((inRangeEntries transactions productId startDate
        endDate).insertionSort dateGE).Pairwise costLE := by
      have hs : List.Sorted dateGE ((inRangeEntries transactions productId startDate
          endDate).insertionSort dateGE) := List.sorted_insertionSort dateGE _
      exact List.Pairwise.imp_of_mem
        (fun h1 h2 hd => hmono _ (hpermD.mem_iff.mp h2) _ (hpermD.mem_iff.mp h1) hd) hs
    exact drain_costValue_le_sorted _ _ _
      (fun e he => hqE e (hpermA.mem_iff.mp he))
      (hpermD.trans hpermA.symm) hsortD hx

/-- Witness for C7 on the worked example (costs 5 then 7, non-decreasing):
UEPS total cost 40 is below PEPS total cost 56. -/
theorem fifo_lifo_cost_monotone_witness :
    (calculateInventoryCost exampleLedger "p" InventoryMethod.UEPS 0 100).totalCost ≤
    (calculateInventoryCost exampleLedger "p" InventoryMethod.PEPS 0 100).totalCost := by
  refine (fifo_lifo_cost_monotone exampleLedger "p" 0 100 ?_).1 ?_
  · intro t ht
    simp only [exampleLedger] at ht
    fin_cases ht <;> norm_num
  · have hE : inRangeEntries exampleLedger "p" 0 100 =
        [⟨"t1", "p", TxType.entry, 10, 5, 1, ""⟩,
         ⟨"t2", "p", TxType.entry, 10, 7, 10, ""⟩] := by
      simp [inRangeEntries, getProductTransactions, exampleLedger, List.filter_cons,
        entry_ne_exit, exit_ne_entry, entry_eq_entry, exit_eq_exit]
    intro e1 h1 e2 h2 hd
    rw [hE] at h1 h2
    fin_cases h1 <;> fin_cases h2 <;> simp_all <;> norm_num

end Minisup
